import Mathlib

/-!
Shallow embedding of the comfyui_api_client repository.

Part 1 models `track_progress`, `get_images` and `generate_image_by_prompt`
from src/comfyui_api_client/api_helpers.py. Part 2 models
`extract_and_remove_loras`, `add_loras_to_workflow` and `find_workflow_key`
from src/comfyui_api_client/text2image.py.

Modelling conventions:
 - Python strings are Lean `String` in part 1 and `List Char` in part 2
   (part 2 needs character-level scanning and key parsing).
 - a websocket frame already parsed from JSON is a `Msg`; a frame that is
   not a `str` (the isinstance check in the source) is `Msg.binary`, a text
   frame whose type tag is none of progress, execution_cached or executing
   is `Msg.other`.
 - Python `raise` / uncaught exceptions are `Except.error` or `Option.none`;
   network effects (the fetch of one image, the fetch of the history
   manifest, the lora file resolver) are function parameters.
 - Python float is modelled as `Rat`; the float() conversion of a digits
   and dots string is `pyFloat`, and `Option.none` models the ValueError it
   raises on inputs such as "1.2.3".
-/

namespace Comfy

/-! ## Part 1a: the progress tracker (`track_progress`) -/

/-- One parsed websocket message, as discriminated by track_progress. -/
inductive Msg where
  | progress (value maxv : Nat)
  | cached (nodes : List String)
  | executing (node : Option String) (promptId : String)
  | other
  | binary
deriving DecidableEq, Repr

/-- Models `finished_nodes.add(n)` on the tracked set (kept as a duplicate-free
list in insertion order; the source uses a Python set and only ever reads
its size for logging and membership). -/
def addDone (finished : List String) (n : String) : List String :=
  if n ∈ finished then finished else finished ++ [n]

/-- One iteration of the body of the `while True` loop of track_progress on
a received message: returns the updated `finished_nodes` and whether the
loop breaks with the job complete. The non-null node is added whenever the
string is truthy (non-empty), with no job-id check; the job id is compared
only in the null-node completion test, mirroring lines 151-157 of
api_helpers.py. -/
def trackStep (trackedId : String) (finished : List String) :
    Msg → List String × Bool
  | .progress _ _ => (finished, false)
  | .cached nodes => (nodes.foldl addDone finished, false)
  | .executing node jid =>
      let f :=
        match node with
        | some n => if n ≠ "" then addDone finished n else finished
        | none => finished
      (f, node.isNone && (jid == trackedId))
  | .other => (finished, false)
  | .binary => (finished, false)

/-- The receive loop of track_progress over a finite stream of messages.
Exhausting the list models `ws.recv()` raising (connection closed or
errored), which the source catches, logs and answers with `break`: the
function then returns with the completion flag still false. -/
def trackRun (trackedId : String) (finished : List String) :
    List Msg → List String × Bool
  | [] => (finished, false)
  | m :: rest =>
      let s := trackStep trackedId finished m
      if s.2 then (s.1, true) else trackRun trackedId s.1 rest

/-- Models `track_progress(prompt, ws, prompt_id)`: `promptKeys` stands for
`list(prompt.keys())`, which the source uses only inside log strings; the
event stream replaces the websocket. Returns the final `finished_nodes`
and whether the loop ended through the completion break. -/
def track_progress (promptKeys : List String) (promptId : String)
    (msgs : List Msg) : List String × Bool :=
  let _ := promptKeys
  trackRun promptId [] msgs

/-! ## Part 1b: the result collector (`get_images`) -/

/-- One image descriptor from the history manifest
(`{filename, subfolder, type}`). -/
structure ImgRef where
  filename : String
  subfolder : String
  itype : String
deriving DecidableEq, Repr

/-- Raw image bytes (`bytes` in Python). `[]` is falsy. -/
abbrev ByteData := List Nat

/-- One element of the list returned by get_images
(`{image_data, file_name, type}`). -/
structure Artifact where
  image_data : ByteData
  file_name : String
  itype : String
deriving DecidableEq, Repr

/-- The output record of one node; `images` models
`node_output.get("images", [])` (an absent key is the empty list). -/
structure NodeOutput where
  images : List ImgRef
deriving DecidableEq, Repr

/-- One job record of the history manifest; `outputs` models
`history[prompt_id].get("outputs", {})`. -/
structure JobRecord where
  outputs : List (String × NodeOutput)
deriving DecidableEq, Repr

/-- The manifest returned by get_history: prompt id to job record, in
insertion order. -/
abbrev History := List (String × JobRecord)

/-- Models `d.get(k, default)` on an association list. -/
def lookupD {α : Type} (l : List (String × α)) (k : String) (dflt : α) : α :=
  match l.find? (fun p => p.1 == k) with
  | some p => p.2
  | none => dflt

/-- Models lines 176-182 of api_helpers.py for one image descriptor: fetch under
the preview/output conditions, keep the result only when truthy. A fetch
error propagates (get_image in src/api/text_2_image.py logs and re-raises,
and get_images installs no handler). -/
def processImage (fetch : ImgRef → Except String ByteData)
    (allowPreview : Bool) (img : ImgRef) : Except String (Option Artifact) :=
  if allowPreview && (img.itype == "temp") then do
    let d ← fetch img
    pure (if d = [] then none else some ⟨d, img.filename, img.itype⟩)
  else if img.itype == "output" then do
    let d ← fetch img
    pure (if d = [] then none else some ⟨d, img.filename, img.itype⟩)
  else
    pure none

/-- The inner `for image in node_output.get("images", [])` loop of get_images. -/
def processImages (fetch : ImgRef → Except String ByteData)
    (allowPreview : Bool) : List ImgRef → Except String (List Artifact)
  | [] => pure []
  | img :: rest => do
      let a ← processImage fetch allowPreview img
      let tail ← processImages fetch allowPreview rest
      pure (match a with | some x => x :: tail | none => tail)

/-- The outer `for node_id, node_output in history.get("outputs", {})`
loop of get_images. -/
def processOutputs (fetch : ImgRef → Except String ByteData)
    (allowPreview : Bool) :
    List (String × NodeOutput) → Except String (List Artifact)
  | [] => pure []
  | (_, out) :: rest => do
      let here ← processImages fetch allowPreview out.images
      let tail ← processOutputs fetch allowPreview rest
      pure (here ++ tail)

/-- Models `get_images(prompt_id, server_addr, allow_preview)`: `historyE` is the
outcome of the get_history call (its failure propagates), `fetch` the
get_image call for one descriptor. -/
def get_images (historyE : Except String History)
    (fetch : ImgRef → Except String ByteData) (promptId : String)
    (allowPreview : Bool) : Except String (List Artifact) := do
  let h ← historyE
  let job := lookupD h promptId ⟨[]⟩
  processOutputs fetch allowPreview job.outputs

/-- Models `generate_image_by_prompt` after the job was queued: runs the tracker,
discards its outcome (the source ignores the return value of
track_progress, which in turn swallows receive errors), then collects and
returns the images. -/
def generate_image_by_prompt (promptKeys : List String) (promptId : String)
    (msgs : List Msg) (historyE : Except String History)
    (fetch : ImgRef → Except String ByteData) (savePreviews : Bool) :
    Except String (List Artifact) :=
  let _ := track_progress promptKeys promptId msgs
  get_images historyE fetch promptId savePreviews

/-! ## Part 2a: the prompt annotation parser (`extract_and_remove_loras`)

Python strings are lists of characters here. The regex
`<lora:([a-zA-Z0-9\-_.]+):([\d.]+)>` is backtrack-free because neither
character class contains the delimiter that follows it, so matching at a
position is: the literal head, a maximal nonempty run of name characters,
a colon, a maximal nonempty run of weight characters, a closing angle
bracket. The `\d` class is modelled as the ASCII digits. -/

/-- A Python string in the character-level part of the model. -/
abbrev Str := List Char

/-- Membership in the regex class `[a-zA-Z0-9\-_.]`. -/
def isNameChar (c : Char) : Bool :=
  c.isAlpha || c.isDigit || c == '-' || c == '_' || c == '.'

/-- Membership in the regex class `[\d.]`. -/
def isWChar (c : Char) : Bool :=
  c.isDigit || c == '.'

/-- The part of the lora-tag regex after the literal head: a maximal
nonempty run of name characters, a colon, a maximal nonempty run of
weight characters, a closing angle bracket. -/
def matchTagBody (rest : Str) : Option (Str × Str × Str) :=
  match rest.dropWhile isNameChar with
  | ':' :: r2 =>
      if rest.takeWhile isNameChar = [] then none
      else
        match r2.dropWhile isWChar with
        | '>' :: r4 =>
            if r2.takeWhile isWChar = [] then none
            else some (rest.takeWhile isNameChar, r2.takeWhile isWChar, r4)
        | _ => none
  | _ => none

/-- Attempts the lora-tag regex at the head of the string; on success
returns the name group, the weight group and the remainder after the
match. -/
def matchTag : Str → Option (Str × Str × Str)
  | '<' :: 'l' :: 'o' :: 'r' :: 'a' :: ':' :: rest => matchTagBody rest
  | _ => none

/-- The full text of one matched tag, as it stood in the input. -/
def renderTag (name w : Str) : Str :=
  '<' :: 'l' :: 'o' :: 'r' :: 'a' :: ':' :: (name ++ ':' :: (w ++ ['>']))

def scanLorasF : Nat → Str → List (Str × Str) × Str
  | 0, s => ([], s)
  | _ + 1, [] => ([], [])
  | fuel + 1, c :: rest =>
      match matchTag (c :: rest) with
      | some (name, w, r) =>
          let p := scanLorasF fuel r
          ((name, w) :: p.1, p.2)
      | none =>
          let p := scanLorasF fuel rest
          (p.1, c :: p.2)

/-- The simultaneous model of `re.findall` and `re.sub` for this pattern:
scan left to right; at a match, record the groups and continue after the
match; otherwise keep the character. Returns the match list and the input
with every matched tag removed. -/
def scanLoras (s : Str) : List (Str × Str) × Str :=
  scanLorasF s.length s

/-- The numeric value of a run of ASCII digits. -/
def decValue (digits : Str) : Nat :=
  digits.foldl (fun a c => a * 10 + (c.toNat - 48)) 0

/-- Models Python float() restricted to the strings the weight class can
produce (digits and dots): defined exactly when the string has at most one
dot and at least one digit, mirroring which of those strings float()
accepts; none models the ValueError raised otherwise. -/
def pyFloat (w : Str) : Option Rat :=
  if w.count '.' ≤ 1 ∧ w.any Char.isDigit then
    match (w.takeWhile (fun c => c ≠ '.')).length, w.dropWhile (fun c => c ≠ '.') with
    | _, [] => some (decValue w)
    | _, _ :: fp =>
        some ((decValue (w.takeWhile (fun c => c ≠ '.')) : Rat) +
          (decValue fp : Rat) / (10 : Rat) ^ fp.length)
  else none

/-- Models Python str.strip(): drop whitespace at both ends only. -/
def pyStrip (s : Str) : Str :=
  ((s.dropWhile Char.isWhitespace).reverse.dropWhile Char.isWhitespace).reverse

/-- Collapses a list of optional values; none as soon as one member is
none (the first ValueError aborts the Python list comprehension). -/
def optionAll {α : Type} : List (Option α) → Option (List α)
  | [] => some []
  | none :: _ => none
  | some a :: rest => (optionAll rest).map (a :: ·)

/-- Models `extract_and_remove_loras(input_string)`: the match list is
converted to name and weight pairs (none when a float() conversion
raises), and the cleaned string is the input with every matched tag
removed and then stripped at both ends. -/
def extract_and_remove_loras (s : Str) : Option (List (Str × Rat) × Str) :=
  let p := scanLoras s
  match optionAll (p.1.map (fun t => (pyFloat t.2).map (fun q => (t.1, q)))) with
  | none => none
  | some loras => some (loras, pyStrip p.2)

/-- The spec-side decomposition relation: `Interleaves s ms cs` says the
input `s` is the cleaned string `cs` with the rendered tags of `ms`
spliced in, in order; so the match list is in left-to-right order of
appearance with duplicates preserved, and the cleaned string is the input
with exactly those tag substrings removed and nothing else changed. -/
inductive Interleaves : Str → List (Str × Str) → Str → Prop where
  | nil : Interleaves [] [] []
  | keep (c : Char) {s ms cs} : Interleaves s ms cs →
      Interleaves (c :: s) ms (c :: cs)
  | tag (name w : Str) {s ms cs} : Interleaves s ms cs →
      Interleaves (renderTag name w ++ s) ((name, w) :: ms) cs

/-! ## Part 2b: the workflow graph model -/

/-- One input value of a node: a string, a lora slot dictionary
(`{"on": ..., "lora": ..., "strength": ...}`), a number, or anything
else. -/
inductive Val where
  | vs (s : Str)
  | slot (enabled : Bool) (lora : Str) (strength : Rat)
  | num (q : Rat)
  | vother
deriving DecidableEq

/-- One node of the workflow graph: `class_type` models
`workflow_data.get("class_type")` (none when the key is absent), `inputs`
the `"inputs"` dictionary in insertion order. -/
structure NodeData where
  class_type : Option Str
  inputs : List (Str × Val)
deriving DecidableEq

/-- A workflow graph: node id to node data, in insertion order. -/
abbrev Workflow := List (Str × NodeData)

/-- First-occurrence lookup in an association list (Python dict access). -/
def alistGet {α : Type} (l : List (Str × α)) (k : Str) : Option α :=
  match l with
  | [] => none
  | (k0, v) :: rest => if k0 = k then some v else alistGet rest k

/-- Dict assignment `d[k] = v`: replace the first occurrence in place, or
append at the end when the key is fresh. -/
def alistSet {α : Type} (l : List (Str × α)) (k : Str) (v : α) :
    List (Str × α) :=
  match l with
  | [] => [(k, v)]
  | (k0, v0) :: rest =>
      if k0 = k then (k0, v) :: rest else (k0, v0) :: alistSet rest k v

/-- Models `find_workflow_key(workflow, key)`: scan entries in insertion
order; return the first whose class type equals the key, except that for
the key CLIPTextEncode an entry whose text input is not the empty string
is skipped (`workflow_data["inputs"].get("text") != ""` holds in
particular when the text key is absent). -/
def find_workflow_key : Workflow → Str → Option Str
  | [], _ => none
  | (k, nd) :: rest, key =>
      if nd.class_type = some key ∧
          ¬(key = "CLIPTextEncode".data ∧
            alistGet nd.inputs "text".data ≠ some (.vs [])) then
        some k
      else find_workflow_key rest key

/-- The last segment of `s.split("_")`. -/
def lastSeg (s : Str) : Str :=
  (s.reverse.takeWhile (fun c => c ≠ '_')).reverse

/-- Models Python int() restricted to plain digit strings (the shape this
code writes and reads back); none models the ValueError on anything
else. -/
def pyNat (s : Str) : Option Nat :=
  if s ≠ [] ∧ s.all Char.isDigit then some (decValue s) else none

/-- The ASCII digit for one value below ten. -/
def decChar (n : Nat) : Char := Char.ofNat (48 + n)

/-- The recursion of the decimal rendering, on fuel so that the kernel can
evaluate it (any fuel above the number suffices). -/
def decStrF : Nat → Nat → Str
  | 0, _ => []
  | fuel + 1, n =>
      if n < 10 then [decChar n]
      else decStrF fuel (n / 10) ++ [decChar (n % 10)]

/-- The decimal rendering of a natural number (the f-string `lora_{i}`
uses it). -/
def decStr (n : Nat) : Str := decStrF (n + 1) n

/-- The key `lora_<i>` written by the f-string. -/
def mkLoraKey (i : Nat) : Str := "lora_".data ++ decStr i

/-- The class type of the modifier loader node. -/
def powerLoraType : Str := "Power Lora Loader (rgthree)".data

/-- The list comprehension collecting the indices of the existing
`lora_<n>` input slots: keys with the `lora_` head, last underscore
segment converted by int(); none when one conversion raises. -/
def loraIdxes (inputs : List (Str × Val)) : Option (List Nat) :=
  optionAll (((inputs.map Prod.fst).filter
    (fun k => "lora_".data.isPrefixOf k)).map (fun k => pyNat (lastSeg k)))

/-- Models `max(lora_idxes, default=0)`. -/
def maxD (l : List Nat) : Nat := l.foldr max 0

/-- Updates the node stored at one workflow key in place. -/
def wfSet (w : Workflow) (key : Str) (f : NodeData → NodeData) : Workflow :=
  match w with
  | [] => []
  | (k, nd) :: rest =>
      if k = key then (k, f nd) :: rest else (k, nd) :: wfSet rest key f

/-- The `for lora in loras` loop of add_loras_to_workflow: a name the
resolver cannot locate is skipped (logged) without consuming an index;
otherwise the running index is incremented and the new slot dictionary
assigned under the fresh `lora_<i>` key. -/
def addLorasLoop (resolver : Str → Option Str) (key : Str) :
    List (Str × Rat) → Nat → Workflow → Workflow
  | [], _, w => w
  | (nm, wt) :: rest, last, w =>
      match resolver nm with
      | none => addLorasLoop resolver key rest last w
      | some path =>
          addLorasLoop resolver key rest (last + 1)
            (wfSet w key (fun nd =>
              ⟨nd.class_type,
               alistSet nd.inputs (mkLoraKey (last + 1)) (.slot true path wt)⟩))

/-- Models `add_loras_to_workflow(workflow, loras, loras_dir)`, with the
directory scan `find_available_lora_by_name(loras_dir, name)` abstracted
as the `resolver` parameter. Absence of the loader node is a logged
no-op returning the workflow unchanged; a ValueError from int() on a
malformed existing slot key is none. -/
def add_loras_to_workflow (resolver : Str → Option Str) (w : Workflow)
    (loras : List (Str × Rat)) : Option Workflow :=
  match find_workflow_key w powerLoraType with
  | none => some w
  | some key =>
      match alistGet w key with
      | none => none
      | some nd =>
          match loraIdxes nd.inputs with
          | none => none
          | some idxes => some (addLorasLoop resolver key loras (maxD idxes) w)

/-- The scan condition of find_workflow_key, as the spec words it: the
class type equals the requested role and, when the role-specific
disambiguator applies (CLIPTextEncode), the designated text field is the
empty string (an absent text key, read back as Python None, also fails
the disambiguator). -/
def findPred (key : Str) (nd : NodeData) : Prop :=
  nd.class_type = some key ∧
    ¬(key = "CLIPTextEncode".data ∧
      alistGet nd.inputs "text".data ≠ some (.vs []))

instance (key : Str) (nd : NodeData) : Decidable (findPred key nd) := by
  unfold findPred; infer_instance

/-- The modifiers the resolver can locate, paired as resolved path and
weight, in input order (the others are skipped). -/
def resolvedOf (resolver : Str → Option Str) (loras : List (Str × Rat)) :
    List (Str × Rat) :=
  loras.filterMap (fun l => (resolver l.1).map (fun p => (p, l.2)))

/-- The slot entries one append call writes: consecutive `lora_<i>` keys
from the start index, one per resolved modifier, each holding the slot
dictionary with the resolved path and the weight. -/
def newSlots (start : Nat) (res : List (Str × Rat)) : List (Str × Val) :=
  List.zipWith (fun i pr => (mkLoraKey i, Val.slot true pr.1 pr.2))
    (List.range' start res.length) res

/-! ## Concrete instances used by the witnesses and counterexamples -/

/-- The class an image descriptor must have for get_images to fetch it:
output always, temp only when previews are allowed (spec 4.5). -/
def selectedImg (ap : Bool) (i : ImgRef) : Bool :=
  (ap && (i.itype == "temp")) || (i.itype == "output")

/-- Every image descriptor the manifest lists for one job, in scan
order. -/
def allManifestImages (h : History) (promptId : String) : List ImgRef :=
  ((lookupD h promptId ⟨[]⟩).outputs.map (fun p => p.2.images)).flatten

/-- A one-image output descriptor. -/
def sampleRef : ImgRef := ⟨"img.png", "", "output"⟩

/-- A manifest holding exactly `sampleRef` for job p. -/
def sampleHistory : History := [("p", ⟨[("9", ⟨[sampleRef]⟩)]⟩)]

/-- A fetch that always succeeds with one byte. -/
def okFetch : ImgRef → Except String ByteData := fun _ => .ok [7]

/-- Two output descriptors in one node record. -/
def refA : ImgRef := ⟨"a.png", "", "output"⟩

/-- Second output descriptor for the two-artifact manifest. -/
def refB : ImgRef := ⟨"b.png", "", "output"⟩

/-- A manifest listing `refA` then `refB` for job p. -/
def twoHistory : History := [("p", ⟨[("9", ⟨[refA, refB]⟩)]⟩)]

/-- A fetch that fails on `refA` and succeeds on anything else. -/
def failFetch : ImgRef → Except String ByteData :=
  fun i => if i.filename == "a.png" then .error "boom" else .ok [7]

/-- A sampler node with no inputs. -/
def ksNode : NodeData := ⟨some "KSampler".data, []⟩

/-- A one-node workflow without a modifier loader. -/
def wOneKs : Workflow := [("n".data, ksNode)]

/-- A text-encoding node whose text input is the empty string. -/
def clipEmptyNode : NodeData :=
  ⟨some "CLIPTextEncode".data, [("text".data, .vs [])]⟩

/-- A text-encoding node whose text input is a non-empty string. -/
def clipFullNode : NodeData :=
  ⟨some "CLIPTextEncode".data, [("text".data, .vs "hi".data)]⟩

/-- A modifier loader node with one pre-existing slot at index 2. -/
def powerNode : NodeData :=
  ⟨some powerLoraType, [("lora_2".data, Val.vother)]⟩

/-- A one-node workflow holding only the modifier loader. -/
def wPower : Workflow := [("1".data, powerNode)]

/-- A resolver that locates only the modifier named a. -/
def res1 : Str → Option Str :=
  fun nm => if nm = "a".data then some "/l/a.st".data else none

/-- Two modifiers, the first unresolvable and the second resolvable. -/
def lorasW : List (Str × Rat) := [("miss".data, 2), ("a".data, 1)]

/-! ## Supporting lemmas -/

theorem matchTagBody_render {rest name w r : Str}
    (h : matchTagBody rest = some (name, w, r)) :
    rest = name ++ ':' :: (w ++ '>' :: r) := by
  unfold matchTagBody at h
  split at h
  case _ r2 hdrop =>
    split at h
    · exact absurd h (by simp)
    · split at h
      case _ r4 hdrop2 =>
        split at h
        · exact absurd h (by simp)
        · injection h with h1
          injection h1 with h1 h2
          injection h2 with h2 h3
          subst h1; subst h2; subst h3
          have e1 : rest.takeWhile isNameChar ++ ':' :: r2 = rest := by
            conv_rhs =>
              rw [← List.takeWhile_append_dropWhile (p := isNameChar) (l := rest)]
            rw [hdrop]
          have e2 : r2.takeWhile isWChar ++ '>' :: r4 = r2 := by
            conv_rhs =>
              rw [← List.takeWhile_append_dropWhile (p := isWChar) (l := r2)]
            rw [hdrop2]
          rw [e2, e1]
      case _ => exact absurd h (by simp)
  case _ => exact absurd h (by simp)

theorem matchTag_render {s name w r : Str} (h : matchTag s = some (name, w, r)) :
    s = renderTag name w ++ r := by
  unfold matchTag at h
  split at h
  case _ rest =>
    have e := matchTagBody_render h
    rw [renderTag, e]
    simp
  case _ => exact absurd h (by simp)

theorem matchTag_shorter {s name w r : Str} (h : matchTag s = some (name, w, r)) :
    r.length < s.length := by
  have e := matchTag_render h
  subst e
  simp only [renderTag, List.length_append, List.length_cons]
  omega

/-- The recursion of the scan, on fuel so that the kernel can evaluate it
(the fuel only needs to cover the string length, since every step consumes
at least one character). -/

theorem scanLorasF_fuel : ∀ (fuel : Nat) (s : Str) (fuel' : Nat),
    s.length ≤ fuel → s.length ≤ fuel' →
    scanLorasF fuel s = scanLorasF fuel' s := by
  intro fuel
  induction fuel with
  | zero =>
      intro s fuel' h1 _
      have hs : s = [] := List.eq_nil_of_length_eq_zero (Nat.le_zero.mp h1)
      subst hs
      cases fuel' <;> rfl
  | succ fuel ih =>
      intro s fuel' h1 h2
      cases s with
      | nil => cases fuel' <;> rfl
      | cons c rest =>
          cases fuel' with
          | zero => simp at h2
          | succ f' =>
              simp only [List.length_cons] at h1 h2
              simp only [scanLorasF]
              cases hm : matchTag (c :: rest) with
              | some t =>
                  obtain ⟨n, w, r⟩ := t
                  have hr : r.length < (c :: rest).length := matchTag_shorter hm
                  simp only [List.length_cons] at hr
                  have e := ih r f' (by omega) (by omega)
                  simp [e]
              | none =>
                  have e := ih rest f' (by omega) (by omega)
                  simp [e]

theorem scanLoras_nil : scanLoras [] = ([], []) := rfl

theorem scanLoras_cons_some {c : Char} {rest name w r : Str}
    (h : matchTag (c :: rest) = some (name, w, r)) :
    scanLoras (c :: rest) = ((name, w) :: (scanLoras r).1, (scanLoras r).2) := by
  have hr : r.length < (c :: rest).length := matchTag_shorter h
  simp only [List.length_cons] at hr
  unfold scanLoras
  simp only [List.length_cons, scanLorasF, h]
  rw [scanLorasF_fuel rest.length r r.length (by omega) (Nat.le_refl _)]

theorem scanLoras_cons_none {c : Char} {rest : Str}
    (h : matchTag (c :: rest) = none) :
    scanLoras (c :: rest) = ((scanLoras rest).1, c :: (scanLoras rest).2) := by
  unfold scanLoras
  simp only [List.length_cons, scanLorasF, h]

theorem decStrF_fuel : ∀ (fuel n fuel' : Nat), n < fuel → n < fuel' →
    decStrF fuel n = decStrF fuel' n := by
  intro fuel
  induction fuel with
  | zero => intro n fuel' h1 _; omega
  | succ fuel ih =>
      intro n fuel' h1 h2
      cases fuel' with
      | zero => omega
      | succ f' =>
          simp only [decStrF]
          by_cases hn : n < 10
          · simp [hn]
          · have hdiv : n / 10 < n := Nat.div_lt_self (by omega) (by norm_num)
            rw [if_neg hn, if_neg hn, ih (n / 10) f' (by omega) (by omega)]

theorem decStr_eq (n : Nat) :
    decStr n = if n < 10 then [decChar n]
      else decStr (n / 10) ++ [decChar (n % 10)] := by
  by_cases hn : n < 10
  · simp [decStr, decStrF, hn]
  · rw [if_neg hn]
    show decStrF (n + 1) n = decStr (n / 10) ++ [decChar (n % 10)]
    have hdiv : n / 10 < n := Nat.div_lt_self (by omega) (by norm_num)
    conv_lhs => rw [decStrF]
    rw [if_neg hn]
    show decStrF n (n / 10) ++ _ = decStrF (n / 10 + 1) (n / 10) ++ _
    rw [decStrF_fuel n (n / 10) (n / 10 + 1) (by omega) (by omega)]

/-! ## The progress tracker lemmas and claims C1, C2, C3 -/

theorem trackRun_snd_iff (tid : String) :
    ∀ (msgs : List Msg) (fin : List String),
      (trackRun tid fin msgs).2 = true ↔ Msg.executing none tid ∈ msgs := by
  intro msgs
  induction msgs with
  | nil => intro fin; simp [trackRun]
  | cons m rest ih =>
      intro fin
      cases m with
      | progress v mx => simp [trackRun, trackStep, ih]
      | cached ns => simp [trackRun, trackStep, ih]
      | other => simp [trackRun, trackStep, ih]
      | binary => simp [trackRun, trackStep, ih]
      | executing node jid =>
          cases node with
          | some n => simp [trackRun, trackStep, ih]
          | none =>
              by_cases hj : jid = tid
              · subst hj
                simp [trackRun, trackStep]
              · simp [trackRun, trackStep, hj, Ne.symm hj, ih]

/-- C1: for every event stream, graph and tracked job id, the tracker
ends with the completion break exactly when the stream contains a
node-executing event whose node is null and whose job id equals the
tracked one; in particular a null-node event for another job never
completes it, and the done count reaching the node total (also when the
graph is empty) never does. -/
theorem track_progress_completes_iff_null_executing
    (promptKeys : List String) (promptId : String) (msgs : List Msg) :
    (track_progress promptKeys promptId msgs).2 = true ↔
      Msg.executing none promptId ∈ msgs :=
  trackRun_snd_iff promptId msgs []

/-- C2 counterexample: a node-executing event tagged with another job id
is not ignored — it changes the done set, so two runs that differ only in
events of other jobs end in different tracker states. -/
theorem track_progress_other_job_event_mutates :
    (track_progress [] "A" [Msg.executing (some "n") "B"]).1 ≠
      (track_progress [] "A" []).1 := by decide

/-- C2 amended: an executing event whose job id differs from the tracked
one never completes the tracker, but its done-set mutation is exactly the
one a matching job id would cause: the implementation checks the job id
only in the null-node completion test, not before mutating. -/
theorem trackStep_other_job_not_filtered (tid : String) (fin : List String)
    (node : Option String) (jid : String) (hne : jid ≠ tid) :
    (trackStep tid fin (Msg.executing node jid)).1 =
      (trackStep tid fin (Msg.executing node tid)).1 ∧
    (trackStep tid fin (Msg.executing node jid)).2 = false := by
  constructor
  · rfl
  · cases node <;> simp [trackStep, hne]

theorem trackStep_other_job_not_filtered_witness :
    (trackStep "A" [] (Msg.executing (some "n") "B")).1 =
      (trackStep "A" [] (Msg.executing (some "n") "A")).1 ∧
    (trackStep "A" [] (Msg.executing (some "n") "B")).2 = false :=
  trackStep_other_job_not_filtered "A" [] (some "n") "B" (by decide)

/-- C3 counterexample: with the channel erroring at once (empty stream),
the tracker ends without completing, yet the caller still fetches and
returns the images of the job manifest — no error is surfaced and a
result is synthesized. -/
theorem generate_image_fetches_after_channel_error :
    (track_progress ["9"] "p" []).2 = false ∧
    generate_image_by_prompt ["9"] "p" [] (Except.ok sampleHistory) okFetch
        false =
      Except.ok [⟨[7], "img.png", "output"⟩] :=
  ⟨rfl, rfl⟩

/-- C3 amended: when the stream ends or the channel errors while the job
is still running (no matching null-node executing event arrived), the
tracker ends with the completion flag unset — never Completed — but
returns normally, and the caller proceeds to collect whatever the
manifest lists, independently of the tracker outcome. -/
theorem generate_image_independent_of_tracker
    (promptKeys : List String) (promptId : String) (msgs : List Msg)
    (historyE : Except String History)
    (fetch : ImgRef → Except String ByteData) (sp : Bool)
    (hnc : Msg.executing none promptId ∉ msgs) :
    (track_progress promptKeys promptId msgs).2 = false ∧
    generate_image_by_prompt promptKeys promptId msgs historyE fetch sp =
      get_images historyE fetch promptId sp := by
  refine ⟨?_, rfl⟩
  cases hb : (track_progress promptKeys promptId msgs).2 with
  | false => rfl
  | true =>
      exact absurd ((trackRun_snd_iff promptId msgs []).mp hb) hnc

theorem generate_image_independent_of_tracker_witness :
    (track_progress ["9"] "p" []).2 = false ∧
    generate_image_by_prompt ["9"] "p" [] (Except.ok sampleHistory) okFetch
        false =
      get_images (Except.ok sampleHistory) okFetch "p" false :=
  generate_image_independent_of_tracker ["9"] "p" [] (Except.ok sampleHistory)
    okFetch false (by decide)

/-! ## The result collector lemmas and claims C4, C5 -/

theorem exceptBind_ok {α β : Type} (x : α) (f : α → Except String β) :
    (Except.ok x >>= f) = f x := rfl

theorem exceptBind_error {α β : Type} (e : String) (f : α → Except String β) :
    ((Except.error e : Except String α) >>= f) = Except.error e := rfl

theorem exceptPure {α : Type} (x : α) :
    (pure x : Except String α) = Except.ok x := rfl

theorem processImage_sel (fetch : ImgRef → Except String ByteData)
    (bytes : ImgRef → ByteData) (hf : ∀ i, fetch i = Except.ok (bytes i))
    (hnz : ∀ i, bytes i ≠ []) (ap : Bool) (img : ImgRef) :
    processImage fetch ap img =
      Except.ok (if selectedImg ap img then
        some ⟨bytes img, img.filename, img.itype⟩ else none) := by
  unfold processImage selectedImg
  by_cases h1 : (ap && (img.itype == "temp")) = true
  · simp [h1, hf, exceptBind_ok, exceptPure, hnz img]
  · by_cases h2 : (img.itype == "output") = true
    · simp [h1, h2, hf, exceptBind_ok, exceptPure, hnz img]
    · simp [h1, h2, exceptPure]

theorem processImages_sel (fetch : ImgRef → Except String ByteData)
    (bytes : ImgRef → ByteData) (hf : ∀ i, fetch i = Except.ok (bytes i))
    (hnz : ∀ i, bytes i ≠ []) (ap : Bool) :
    ∀ imgs : List ImgRef,
      processImages fetch ap imgs =
        Except.ok ((imgs.filter (selectedImg ap)).map
          (fun i => ⟨bytes i, i.filename, i.itype⟩)) := by
  intro imgs
  induction imgs with
  | nil => rfl
  | cons img rest ih =>
      rw [processImages, processImage_sel fetch bytes hf hnz ap img, ih]
      by_cases hs : selectedImg ap img = true
      · simp [hs, exceptBind_ok, exceptPure, List.filter_cons]
      · simp [hs, exceptBind_ok, exceptPure, List.filter_cons]

theorem processOutputs_sel (fetch : ImgRef → Except String ByteData)
    (bytes : ImgRef → ByteData) (hf : ∀ i, fetch i = Except.ok (bytes i))
    (hnz : ∀ i, bytes i ≠ []) (ap : Bool) :
    ∀ outs : List (String × NodeOutput),
      processOutputs fetch ap outs =
        Except.ok ((((outs.map (fun p => p.2.images)).flatten.filter
          (selectedImg ap)).map (fun i => ⟨bytes i, i.filename, i.itype⟩))) := by
  intro outs
  induction outs with
  | nil => rfl
  | cons p rest ih =>
      rw [processOutputs, processImages_sel fetch bytes hf hnz ap, ih]
      simp [exceptBind_ok, exceptPure, List.filter_append]

/-- C5: for every manifest, collection returns exactly the artifacts of
class output when previews are off, and exactly those of class output
together with class temp when previews are on; descriptors of any other
class are dropped (stated for fetches that succeed with nonempty
bytes). -/
theorem get_images_filters_by_class (h : History) (promptId : String)
    (ap : Bool) (fetch : ImgRef → Except String ByteData)
    (bytes : ImgRef → ByteData)
    (hf : ∀ i, fetch i = Except.ok (bytes i))
    (hnz : ∀ i, bytes i ≠ []) :
    get_images (Except.ok h) fetch promptId ap =
      Except.ok (((allManifestImages h promptId).filter (selectedImg ap)).map
        (fun i => ⟨bytes i, i.filename, i.itype⟩)) := by
  unfold get_images allManifestImages
  rw [exceptBind_ok]
  exact processOutputs_sel fetch bytes hf hnz ap _

theorem get_images_filters_by_class_witness :
    get_images (Except.ok twoHistory) okFetch "p" false =
      Except.ok (((allManifestImages twoHistory "p").filter
        (selectedImg false)).map
        (fun i => ⟨[7], i.filename, i.itype⟩)) :=
  get_images_filters_by_class twoHistory "p" false okFetch (fun _ => [7])
    (fun _ => rfl) (fun _ => by simp)

theorem processImage_not_sel (fetch : ImgRef → Except String ByteData)
    (ap : Bool) (img : ImgRef) (hs : selectedImg ap img = false) :
    processImage fetch ap img = Except.ok none := by
  unfold selectedImg at hs
  unfold processImage
  simp only [Bool.or_eq_false_iff] at hs
  simp [hs.1, hs.2, exceptPure]

theorem processImage_sel_err (fetch : ImgRef → Except String ByteData)
    (e : String) (ap : Bool) (img : ImgRef)
    (hfe : fetch img = Except.error e) (hs : selectedImg ap img = true) :
    processImage fetch ap img = Except.error e := by
  unfold selectedImg at hs
  unfold processImage
  by_cases h1 : (ap && (img.itype == "temp")) = true
  · simp [h1, hfe, exceptBind_error]
  · simp only [h1, Bool.false_or] at hs
    simp [h1, hs, hfe, exceptBind_error]

theorem processImages_err (fetch : ImgRef → Except String ByteData)
    (e : String) (ap : Bool) (hfe : ∀ i, fetch i = Except.error e) :
    ∀ imgs : List ImgRef, (∃ i ∈ imgs, selectedImg ap i = true) →
      processImages fetch ap imgs = Except.error e := by
  intro imgs
  induction imgs with
  | nil => rintro ⟨i, hi, _⟩; exact absurd hi (List.not_mem_nil i)
  | cons img rest ih =>
      rintro ⟨i, hi, hsel⟩
      by_cases hs : selectedImg ap img = true
      · rw [processImages, processImage_sel_err fetch e ap img (hfe img) hs,
          exceptBind_error]
      · rw [processImages, processImage_not_sel fetch ap img
          (Bool.not_eq_true _ ▸ hs), exceptBind_ok]
        have hir : i ∈ rest := by
          cases List.mem_cons.mp hi with
          | inl hEq => exact absurd (hEq ▸ hsel) hs
          | inr hr => exact hr
        rw [ih ⟨i, hir, hsel⟩, exceptBind_error]

theorem processImages_none_sel (fetch : ImgRef → Except String ByteData)
    (ap : Bool) : ∀ imgs : List ImgRef,
      (∀ j ∈ imgs, selectedImg ap j = false) →
      processImages fetch ap imgs = Except.ok [] := by
  intro imgs
  induction imgs with
  | nil => intro _; rfl
  | cons a as iha =>
      intro hnone
      rw [processImages, processImage_not_sel fetch ap a
        (hnone a (List.mem_cons_self a as)), exceptBind_ok,
        iha (fun j hj => hnone j (List.mem_cons_of_mem a hj)), exceptBind_ok]
      rfl

theorem processOutputs_err (fetch : ImgRef → Except String ByteData)
    (e : String) (ap : Bool) (hfe : ∀ i, fetch i = Except.error e) :
    ∀ outs : List (String × NodeOutput),
      (∃ i ∈ (outs.map (fun p => p.2.images)).flatten,
        selectedImg ap i = true) →
      processOutputs fetch ap outs = Except.error e := by
  intro outs
  induction outs with
  | nil => rintro ⟨i, hi, _⟩; simp at hi
  | cons p rest ih =>
      rintro ⟨i, hi, hsel⟩
      simp only [List.map_cons, List.flatten_cons, List.mem_append] at hi
      cases hi with
      | inl hhead =>
          rw [processOutputs, processImages_err fetch e ap hfe p.2.images
            ⟨i, hhead, hsel⟩, exceptBind_error]
      | inr htail =>
          rw [processOutputs]
          by_cases hhead : ∃ j ∈ p.2.images, selectedImg ap j = true
          · rw [processImages_err fetch e ap hfe p.2.images hhead,
              exceptBind_error]
          · push_neg at hhead
            have hnone : ∀ j ∈ p.2.images, selectedImg ap j = false := by
              intro j hj
              exact Bool.not_eq_true _ ▸ (hhead j hj)
            rw [processImages_none_sel fetch ap p.2.images hnone,
              exceptBind_ok, ih ⟨i, htail, hsel⟩, exceptBind_error]

/-- C4 counterexample: the manifest lists two output artifacts and the
fetch of the first fails; the claim says that artifact is skipped and
collection continues with the second, but the code aborts the whole
collection with the error. -/
theorem get_images_aborts_on_artifact_error :
    get_images (Except.ok twoHistory) failFetch "p" false =
      Except.error "boom" := rfl

/-- C4 amended: a failure while fetching one selected artifact is logged
inside the fetch helper but re-raised, so it aborts the whole collection
exactly like a manifest fetch failure; only a manifest failure and an
artifact failure behave alike (both fatal), contrary to the skip-with-log
wording. -/
theorem get_images_error_propagation :
    (∀ (e : String) (fetch : ImgRef → Except String ByteData)
        (promptId : String) (ap : Bool),
      get_images (Except.error e) fetch promptId ap = Except.error e) ∧
    (∀ (h : History) (promptId : String) (ap : Bool) (e : String)
        (fetch : ImgRef → Except String ByteData),
      (∀ i, fetch i = Except.error e) →
      (∃ i ∈ allManifestImages h promptId, selectedImg ap i = true) →
      get_images (Except.ok h) fetch promptId ap = Except.error e) := by
  constructor
  · intro e fetch promptId ap; rfl
  · intro h promptId ap e fetch hfe hex
    unfold get_images
    rw [exceptBind_ok]
    exact processOutputs_err fetch e ap hfe _ hex

theorem get_images_error_propagation_witness :
    get_images (Except.error "down") okFetch "p" false =
        Except.error "down" ∧
    get_images (Except.ok twoHistory) (fun _ => Except.error "boom") "p"
        false = Except.error "boom" :=
  ⟨get_images_error_propagation.1 "down" okFetch "p" false,
   get_images_error_propagation.2 twoHistory "p" false "boom"
     (fun _ => Except.error "boom") (fun _ => rfl) (by decide)⟩

/-! ## The annotation parser lemmas and claims C6, C10 -/

theorem extract_pairs : ∀ (l : List (Str × Str)),
    (∀ t ∈ l, (pyFloat t.2).isSome = true) →
    ∃ loras : List (Str × Rat),
      optionAll (l.map (fun t => (pyFloat t.2).map (fun q => (t.1, q)))) =
        some loras ∧
      loras.map Prod.fst = l.map Prod.fst ∧
      loras.length = l.length ∧
      ∀ p ∈ loras.zip l, pyFloat p.2.2 = some p.1.2 := by
  intro l
  induction l with
  | nil => intro _; exact ⟨[], rfl, rfl, rfl, by simp⟩
  | cons t rest ih =>
      intro h
      obtain ⟨q, hq⟩ :=
        Option.isSome_iff_exists.mp (h t (List.mem_cons_self t rest))
      obtain ⟨loras, h1, h2, h3, h4⟩ :=
        ih (fun u hu => h u (List.mem_cons_of_mem t hu))
      refine ⟨(t.1, q) :: loras, ?_, ?_, ?_, ?_⟩
      · simp [optionAll, hq, h1]
      · simp [h2]
      · simp [h3]
      · intro p hp
        rw [List.zip_cons_cons] at hp
        rcases List.mem_cons.mp hp with rfl | hp'
        · exact hq
        · exact h4 p hp'

theorem scanLoras_interleaves_aux : ∀ (n : Nat) (s : Str), s.length ≤ n →
    Interleaves s (scanLoras s).1 (scanLoras s).2 := by
  intro n
  induction n with
  | zero =>
      intro s h
      have hs : s = [] := List.eq_nil_of_length_eq_zero (Nat.le_zero.mp h)
      subst hs
      rw [scanLoras_nil]
      exact Interleaves.nil
  | succ n ih =>
      intro s h
      cases s with
      | nil => rw [scanLoras_nil]; exact Interleaves.nil
      | cons c rest =>
          simp only [List.length_cons] at h
          cases hm : matchTag (c :: rest) with
          | some t =>
              obtain ⟨nm, w, r⟩ := t
              rw [scanLoras_cons_some hm]
              have hr : r.length < (c :: rest).length := matchTag_shorter hm
              simp only [List.length_cons] at hr
              have hi := ih r (by omega)
              have e := matchTag_render hm
              rw [e]
              exact Interleaves.tag nm w hi
          | none =>
              rw [scanLoras_cons_none hm]
              exact Interleaves.keep c (ih rest (by omega))

theorem scanLoras_interleaves (s : Str) :
    Interleaves s (scanLoras s).1 (scanLoras s).2 :=
  scanLoras_interleaves_aux s.length s (Nat.le_refl _)

theorem scanLoras_no_tags_aux : ∀ (n : Nat) (s : Str), s.length ≤ n →
    (scanLoras s).1 = [] → (scanLoras s).2 = s := by
  intro n
  induction n with
  | zero =>
      intro s h _
      have hs : s = [] := List.eq_nil_of_length_eq_zero (Nat.le_zero.mp h)
      subst hs
      rw [scanLoras_nil]
  | succ n ih =>
      intro s h hempty
      cases s with
      | nil => rw [scanLoras_nil]
      | cons c rest =>
          simp only [List.length_cons] at h
          cases hm : matchTag (c :: rest) with
          | some t =>
              obtain ⟨nm, w, r⟩ := t
              rw [scanLoras_cons_some hm] at hempty
              exact absurd hempty (by simp)
          | none =>
              rw [scanLoras_cons_none hm] at hempty ⊢
              rw [ih rest (by omega) hempty]

theorem scanLoras_no_tags (s : Str) :
    (scanLoras s).1 = [] → (scanLoras s).2 = s :=
  scanLoras_no_tags_aux s.length s (Nat.le_refl _)

theorem pyStrip_decomp (s : Str) :
    ∃ pre suf, s = pre ++ pyStrip s ++ suf ∧
      (∀ c ∈ pre, c.isWhitespace = true) ∧
      (∀ c ∈ suf, c.isWhitespace = true) := by
  refine ⟨s.takeWhile Char.isWhitespace,
    ((s.dropWhile Char.isWhitespace).reverse.takeWhile
      Char.isWhitespace).reverse, ?_, ?_, ?_⟩
  · have ha : pyStrip s ++
        ((s.dropWhile Char.isWhitespace).reverse.takeWhile
          Char.isWhitespace).reverse =
        s.dropWhile Char.isWhitespace := by
      unfold pyStrip
      rw [← List.reverse_append, List.takeWhile_append_dropWhile,
        List.reverse_reverse]
    rw [List.append_assoc, ha, List.takeWhile_append_dropWhile]
  · intro c hc; exact List.mem_takeWhile_imp hc
  · intro c hc
    rw [List.mem_reverse] at hc
    exact List.mem_takeWhile_imp hc

/-- C6 counterexample: on an input whose tag weight field is a run of
digits and dots but not a decimal number, the parser matches the tag and
the float conversion of the weight then raises (modelled by none) instead
of the function returning a pair for every prompt string. -/
theorem extract_loras_raises_on_bad_weight :
    extract_and_remove_loras "x <lora:a:1..2>".data = none := by decide

/-- C6 amended: for every prompt string whose matched tag weights are all
valid decimal numbers, the parser returns the name and weight pairs of the
matched tags in left-to-right order of appearance with duplicates
preserved, together with the input string with exactly the matched tag
substrings removed and whitespace trimmed at the two ends only (interior
whitespace is kept); when no tag is matched the cleaned string is the
trimmed original. On a matched weight that float() rejects the function
raises instead of returning. -/
theorem extract_loras_characterization (s : Str)
    (hw : ∀ t ∈ (scanLoras s).1, (pyFloat t.2).isSome = true) :
    ∃ loras : List (Str × Rat),
      extract_and_remove_loras s = some (loras, pyStrip (scanLoras s).2) ∧
      loras.map Prod.fst = ((scanLoras s).1).map Prod.fst ∧
      loras.length = ((scanLoras s).1).length ∧
      (∀ p ∈ loras.zip (scanLoras s).1, pyFloat p.2.2 = some p.1.2) ∧
      Interleaves s ((scanLoras s).1) ((scanLoras s).2) ∧
      ((scanLoras s).1 = [] → (scanLoras s).2 = s) ∧
      (∃ pre suf, (scanLoras s).2 = pre ++ pyStrip (scanLoras s).2 ++ suf ∧
        (∀ c ∈ pre, c.isWhitespace = true) ∧
        (∀ c ∈ suf, c.isWhitespace = true)) := by
  obtain ⟨loras, h1, h2, h3, h4⟩ := extract_pairs (scanLoras s).1 hw
  refine ⟨loras, ?_, h2, h3, h4, scanLoras_interleaves s,
    scanLoras_no_tags s, pyStrip_decomp _⟩
  unfold extract_and_remove_loras
  simp only [h1]

theorem extract_loras_characterization_witness :
    ∃ loras : List (Str × Rat),
      extract_and_remove_loras
          "a beautiful <lora:anime:0.8> scene <lora:retro:1.2>".data =
        some (loras, pyStrip (scanLoras
          "a beautiful <lora:anime:0.8> scene <lora:retro:1.2>".data).2) ∧
      loras.map Prod.fst = ((scanLoras
        "a beautiful <lora:anime:0.8> scene <lora:retro:1.2>".data).1).map
          Prod.fst ∧
      loras.length = ((scanLoras
        "a beautiful <lora:anime:0.8> scene <lora:retro:1.2>".data).1).length ∧
      (∀ p ∈ loras.zip (scanLoras
          "a beautiful <lora:anime:0.8> scene <lora:retro:1.2>".data).1,
        pyFloat p.2.2 = some p.1.2) ∧
      Interleaves "a beautiful <lora:anime:0.8> scene <lora:retro:1.2>".data
        ((scanLoras
          "a beautiful <lora:anime:0.8> scene <lora:retro:1.2>".data).1)
        ((scanLoras
          "a beautiful <lora:anime:0.8> scene <lora:retro:1.2>".data).2) ∧
      (((scanLoras
          "a beautiful <lora:anime:0.8> scene <lora:retro:1.2>".data).1 =
            [] →
        (scanLoras
          "a beautiful <lora:anime:0.8> scene <lora:retro:1.2>".data).2 =
          "a beautiful <lora:anime:0.8> scene <lora:retro:1.2>".data)) ∧
      (∃ pre suf,
        (scanLoras
          "a beautiful <lora:anime:0.8> scene <lora:retro:1.2>".data).2 =
          pre ++ pyStrip (scanLoras
            "a beautiful <lora:anime:0.8> scene <lora:retro:1.2>".data).2 ++
            suf ∧
        (∀ c ∈ pre, c.isWhitespace = true) ∧
        (∀ c ∈ suf, c.isWhitespace = true)) :=
  extract_loras_characterization
    "a beautiful <lora:anime:0.8> scene <lora:retro:1.2>".data (by decide)

/-- C10: the annotation parser is not total: on the input <lora:x:1.2.3>
the tag is matched (the weight class accepts any nonempty run of digits
and dots) but the numeric conversion of the weight raises, modelled by
none, instead of the function returning a modifiers and cleaned-string
pair. -/
theorem extract_loras_not_total :
    (scanLoras "<lora:x:1.2.3>".data).1 = [("x".data, "1.2.3".data)] ∧
    pyFloat "1.2.3".data = none ∧
    extract_and_remove_loras "<lora:x:1.2.3>".data = none := by decide

/-! ## The workflow lookup and claims C8, C9 -/

/-- C8 counterexample: a graph in which the CLIPTextEncode role occurs
exactly once but that node has non-empty text; the lookup skips it through
the disambiguator and returns NotFound instead of the node id. -/
theorem find_workflow_key_unique_clip_nonempty :
    clipFullNode.class_type = some "CLIPTextEncode".data ∧
    find_workflow_key [("1".data, clipFullNode)] "CLIPTextEncode".data =
      none := by decide

/-- C8 amended: find_workflow_key scans entries in insertion order and
returns the first whose class type equals the requested role and that
passes the role disambiguator when one applies; for a graph in which the
role occurs exactly once AND that node passes the disambiguator the
lookup returns its id (a unique CLIPTextEncode node with non-empty text
is skipped and the lookup returns NotFound); for an absent role it
returns NotFound; and of two same-role CLIPTextEncode nodes of which
exactly one has empty text, it deterministically returns that one in
either insertion order. -/
theorem find_workflow_key_characterization (w : Workflow) (key : Str) :
    (∀ k, find_workflow_key w key = some k →
      ∃ pre nd suf, w = pre ++ (k, nd) :: suf ∧ findPred key nd ∧
        ∀ p ∈ pre, ¬ findPred key p.2) ∧
    (find_workflow_key w key = none ↔ ∀ p ∈ w, ¬ findPred key p.2) ∧
    (∀ k nd, (k, nd) ∈ w → findPred key nd →
      (∀ p ∈ w, p.2.class_type = some key → p = (k, nd)) →
      find_workflow_key w key = some k) ∧
    ((∀ p ∈ w, p.2.class_type ≠ some key) →
      find_workflow_key w key = none) ∧
    (∀ (k1 k2 : Str) (nd1 nd2 : NodeData),
      nd1.class_type = some "CLIPTextEncode".data →
      nd2.class_type = some "CLIPTextEncode".data →
      alistGet nd1.inputs "text".data = some (.vs []) →
      alistGet nd2.inputs "text".data ≠ some (.vs []) →
      find_workflow_key [(k1, nd1), (k2, nd2)] "CLIPTextEncode".data =
          some k1 ∧
      find_workflow_key [(k2, nd2), (k1, nd1)] "CLIPTextEncode".data =
          some k1) := by
  refine ⟨?_, ?_, ?_, ?_, ?_⟩
  · intro k
    induction w with
    | nil => intro h; exact absurd h (by simp [find_workflow_key])
    | cons p rest ih =>
        obtain ⟨k0, nd0⟩ := p
        intro h
        rw [find_workflow_key] at h
        by_cases hc : findPred key nd0
        · rw [if_pos ⟨hc.1, hc.2⟩] at h
          injection h with h
          subst h
          exact ⟨[], nd0, rest, rfl, hc, by simp⟩
        · rw [if_neg (fun hand => hc ⟨hand.1, hand.2⟩)] at h
          obtain ⟨pre, nd, suf, he, hp, hpre⟩ := ih h
          exact ⟨(k0, nd0) :: pre, nd, suf, by rw [he]; simp, hp, by
            intro p hp'
            rcases List.mem_cons.mp hp' with rfl | hmem
            · exact hc
            · exact hpre p hmem⟩
  · induction w with
    | nil => simp [find_workflow_key]
    | cons p rest ih =>
        obtain ⟨k0, nd0⟩ := p
        rw [find_workflow_key]
        by_cases hc : findPred key nd0
        · rw [if_pos ⟨hc.1, hc.2⟩]
          constructor
          · intro h; exact absurd h (by simp)
          · intro h
            exact absurd hc (h (k0, nd0) (List.mem_cons_self _ _))
        · rw [if_neg (fun hand => hc ⟨hand.1, hand.2⟩)]
          rw [ih]
          constructor
          · intro h p hp
            rcases List.mem_cons.mp hp with rfl | hmem
            · exact hc
            · exact h p hmem
          · intro h p hp
            exact h p (List.mem_cons_of_mem _ hp)
  · intro k nd
    induction w with
    | nil => intro hmem; exact absurd hmem (List.not_mem_nil _)
    | cons p rest ih =>
        obtain ⟨k0, nd0⟩ := p
        intro hmem hp huniq
        rw [find_workflow_key]
        by_cases hc : findPred key nd0
        · rw [if_pos ⟨hc.1, hc.2⟩]
          have := huniq (k0, nd0) (List.mem_cons_self _ _) hc.1
          injection this with e1 e2
          rw [e1]
        · rw [if_neg (fun hand => hc ⟨hand.1, hand.2⟩)]
          have hmem' : (k, nd) ∈ rest := by
            rcases List.mem_cons.mp hmem with he | hr
            · injection he with e1 e2
              subst e1; subst e2
              exact absurd hp hc
            · exact hr
          exact ih hmem' hp (fun p hp' hcl =>
            huniq p (List.mem_cons_of_mem _ hp') hcl)
  · intro h
    induction w with
    | nil => rfl
    | cons p rest ih =>
        obtain ⟨k0, nd0⟩ := p
        rw [find_workflow_key]
        have hcl := h (k0, nd0) (List.mem_cons_self _ _)
        rw [if_neg (fun hand => hcl hand.1)]
        exact ih (fun p hp => h p (List.mem_cons_of_mem _ hp))
  · intro k1 k2 nd1 nd2 h1 h2 ht1 ht2
    constructor
    · rw [find_workflow_key, if_pos ⟨h1, fun hand => hand.2 ht1⟩]
    · rw [find_workflow_key, if_neg (fun hand => hand.2 ⟨rfl, ht2⟩),
        find_workflow_key, if_pos ⟨h1, fun hand => hand.2 ht1⟩]

theorem find_workflow_key_characterization_witness :
    find_workflow_key wOneKs "KSampler".data = some "n".data ∧
    find_workflow_key wOneKs "Absent".data = none ∧
    find_workflow_key [("2".data, clipEmptyNode), ("1".data, clipFullNode)]
        "CLIPTextEncode".data = some "2".data ∧
    find_workflow_key [("1".data, clipFullNode), ("2".data, clipEmptyNode)]
        "CLIPTextEncode".data = some "2".data :=
  ⟨(find_workflow_key_characterization wOneKs "KSampler".data).2.2.1
      "n".data ksNode (by decide) (by decide) (by decide),
   (find_workflow_key_characterization wOneKs "Absent".data).2.2.2.1
      (by decide),
   ((find_workflow_key_characterization [] []).2.2.2.2 "2".data "1".data
      clipEmptyNode clipFullNode (by decide) (by decide) (by decide)
      (by decide)).1,
   ((find_workflow_key_characterization [] []).2.2.2.2 "2".data "1".data
      clipEmptyNode clipFullNode (by decide) (by decide) (by decide)
      (by decide)).2⟩

/-- C9: when the graph holds no node of the modifier-loader class,
appending modifiers returns the workflow entirely unchanged (a logged
no-op, not an exception). -/
theorem add_loras_no_loader_noop (resolver : Str → Option Str)
    (w : Workflow) (loras : List (Str × Rat))
    (h : find_workflow_key w powerLoraType = none) :
    add_loras_to_workflow resolver w loras = some w := by
  unfold add_loras_to_workflow
  rw [h]

theorem add_loras_no_loader_noop_witness :
    add_loras_to_workflow (fun _ => none) wOneKs [] = some wOneKs :=
  add_loras_no_loader_noop (fun _ => none) wOneKs [] (by decide)

/-! ## Slot key lemmas for claim C7 -/

theorem decChar_isDigit {m : Nat} (h : m < 10) : (decChar m).isDigit = true := by
  interval_cases m <;> decide

theorem decChar_toNat {m : Nat} (h : m < 10) : (decChar m).toNat = 48 + m := by
  interval_cases m <;> decide

theorem decStr_all_digits : ∀ n : Nat, ∀ c ∈ decStr n, c.isDigit = true := by
  intro n
  induction n using Nat.strong_induction_on with
  | _ n ih =>
      intro c hc
      rw [decStr_eq] at hc
      by_cases hn : n < 10
      · rw [if_pos hn] at hc
        rcases List.mem_singleton.mp hc with rfl
        exact decChar_isDigit hn
      · rw [if_neg hn] at hc
        rcases List.mem_append.mp hc with hl | hr
        · exact ih (n / 10) (Nat.div_lt_self (by omega) (by norm_num)) c hl
        · rcases List.mem_singleton.mp hr with rfl
          exact decChar_isDigit (Nat.mod_lt n (by norm_num))

theorem decValue_append (a : Str) (c : Char) :
    decValue (a ++ [c]) = decValue a * 10 + (c.toNat - 48) := by
  unfold decValue
  rw [List.foldl_append]
  rfl

theorem decValue_decStr : ∀ n : Nat, decValue (decStr n) = n := by
  intro n
  induction n using Nat.strong_induction_on with
  | _ n ih =>
      rw [decStr_eq]
      by_cases hn : n < 10
      · rw [if_pos hn]
        show decValue ([] ++ [decChar n]) = n
        rw [decValue_append, decChar_toNat hn]
        show 0 * 10 + (48 + n - 48) = n
        omega
      · rw [if_neg hn, decValue_append,
          ih (n / 10) (Nat.div_lt_self (by omega) (by norm_num)),
          decChar_toNat (Nat.mod_lt n (by norm_num))]
        omega

theorem decStr_ne_nil (n : Nat) : decStr n ≠ [] := by
  rw [decStr_eq]
  by_cases hn : n < 10
  · rw [if_pos hn]; simp
  · rw [if_neg hn]; simp

theorem pyNat_decStr (n : Nat) : pyNat (decStr n) = some n := by
  unfold pyNat
  rw [if_pos ⟨decStr_ne_nil n, List.all_eq_true.mpr
    (fun c hc => decStr_all_digits n c hc)⟩, decValue_decStr]

theorem takeWhile_all_append {p : Char → Bool} :
    ∀ (xs : Str) (y : Char) (ys : Str), (∀ x ∈ xs, p x = true) →
      p y = false → (xs ++ y :: ys).takeWhile p = xs := by
  intro xs y ys
  induction xs with
  | nil =>
      intro _ hy
      simp [List.takeWhile, hy]
  | cons a as ih =>
      intro hall hy
      rw [List.cons_append, List.takeWhile_cons,
        hall a (List.mem_cons_self a as),
        ih (fun x hx => hall x (List.mem_cons_of_mem a hx)) hy]
      simp

theorem lastSeg_mkLoraKey (i : Nat) : lastSeg (mkLoraKey i) = decStr i := by
  unfold lastSeg mkLoraKey
  rw [List.reverse_append]
  have e : ("lora_".data).reverse = '_' :: "arol".data := by decide
  rw [e, takeWhile_all_append (decStr i).reverse '_' "arol".data
    (by
      intro x hx
      rw [List.mem_reverse] at hx
      have hd := decStr_all_digits i x hx
      simp only [decide_eq_true_eq]
      intro heq
      rw [heq] at hd
      exact absurd hd (by decide))
    (by simp), List.reverse_reverse]

theorem pyNat_lastSeg_mkLoraKey (i : Nat) :
    pyNat (lastSeg (mkLoraKey i)) = some i := by
  rw [lastSeg_mkLoraKey, pyNat_decStr]

theorem loraHead_isPrefixOf_mkLoraKey (i : Nat) :
    ("lora_".data).isPrefixOf (mkLoraKey i) = true := by
  rw [List.isPrefixOf_iff_prefix]
  exact ⟨decStr i, rfl⟩

theorem alistGet_wfSet_self :
    ∀ (w : Workflow) (key : Str) (f : NodeData → NodeData) (nd : NodeData),
      alistGet w key = some nd →
      alistGet (wfSet w key f) key = some (f nd) := by
  intro w key f
  induction w with
  | nil => intro nd h; exact absurd h (by simp [alistGet])
  | cons p rest ih =>
      obtain ⟨k0, nd0⟩ := p
      intro nd h
      rw [alistGet] at h
      rw [wfSet]
      by_cases hk : k0 = key
      · rw [if_pos hk] at h ⊢
        injection h with h
        subst h
        rw [alistGet, if_pos hk]
      · rw [if_neg hk] at h ⊢
        rw [alistGet, if_neg hk]
        exact ih nd h

theorem alistGet_wfSet_ne :
    ∀ (w : Workflow) (key : Str) (f : NodeData → NodeData) (k' : Str),
      k' ≠ key → alistGet (wfSet w key f) k' = alistGet w k' := by
  intro w key f k' hne
  induction w with
  | nil => rfl
  | cons p rest ih =>
      obtain ⟨k0, nd0⟩ := p
      rw [wfSet]
      by_cases hk : k0 = key
      · rw [if_pos hk, alistGet, alistGet,
          if_neg (fun he => hne (he.symm.trans hk)),
          if_neg (fun he => hne (he.symm.trans hk))]
      · rw [if_neg hk, alistGet, alistGet]
        by_cases hk' : k0 = k'
        · rw [if_pos hk', if_pos hk']
        · rw [if_neg hk', if_neg hk']
          exact ih

theorem alistSet_fresh :
    ∀ (l : List (Str × Val)) (k : Str) (v : Val),
      k ∉ l.map Prod.fst → alistSet l k v = l ++ [(k, v)] := by
  intro l k v
  induction l with
  | nil => intro _; rfl
  | cons p rest ih =>
      obtain ⟨k0, v0⟩ := p
      intro hmem
      rw [alistSet]
      have hk : k0 ≠ k := by
        intro he
        apply hmem
        rw [List.map_cons]
        exact List.mem_cons.mpr (Or.inl he.symm)
      rw [if_neg hk, ih (fun hm => hmem (by
        rw [List.map_cons]
        exact List.mem_cons_of_mem k0 hm))]
      rfl

theorem optionAll_append {α : Type} :
    ∀ (a b : List (Option α)) (xs ys : List α),
      optionAll a = some xs → optionAll b = some ys →
      optionAll (a ++ b) = some (xs ++ ys) := by
  intro a
  induction a with
  | nil =>
      intro b xs ys ha hb
      rw [optionAll] at ha
      injection ha with ha
      subst ha
      simpa using hb
  | cons o rest ih =>
      intro b xs ys ha hb
      cases o with
      | none => rw [optionAll] at ha; exact absurd ha (by simp)
      | some x =>
          rw [optionAll] at ha
          cases hr : optionAll rest with
          | none => rw [hr] at ha; exact absurd ha (by simp)
          | some zs =>
              rw [hr] at ha
              simp only [Option.map_some'] at ha
              injection ha with ha
              subst ha
              rw [List.cons_append, optionAll, ih b zs ys hr hb]
              rfl

theorem optionAll_map_some {α : Type} :
    ∀ l : List α, optionAll (l.map some) = some l := by
  intro l
  induction l with
  | nil => rfl
  | cons x rest ih => rw [List.map_cons, optionAll, ih]; rfl

theorem optionAll_mem {α : Type} :
    ∀ (l : List (Option α)) (xs : List α), optionAll l = some xs →
      ∀ o ∈ l, ∃ x ∈ xs, o = some x := by
  intro l
  induction l with
  | nil => intro xs _ o ho; exact absurd ho (List.not_mem_nil o)
  | cons o0 rest ih =>
      intro xs h o ho
      cases o0 with
      | none => rw [optionAll] at h; exact absurd h (by simp)
      | some x0 =>
          rw [optionAll] at h
          cases hr : optionAll rest with
          | none => rw [hr] at h; exact absurd h (by simp)
          | some zs =>
              rw [hr] at h
              simp only [Option.map_some'] at h
              injection h with h
              subst h
              rcases List.mem_cons.mp ho with rfl | hmem
              · exact ⟨x0, List.mem_cons_self x0 zs, rfl⟩
              · obtain ⟨x, hx, he⟩ := ih zs hr o hmem
                exact ⟨x, List.mem_cons_of_mem x0 hx, he⟩

theorem le_maxD : ∀ (l : List Nat), ∀ x ∈ l, x ≤ maxD l := by
  intro l
  induction l with
  | nil => intro x hx; exact absurd hx (List.not_mem_nil x)
  | cons a rest ih =>
      intro x hx
      rcases List.mem_cons.mp hx with rfl | hmem
      · exact Nat.le_max_left x (maxD rest)
      · exact Nat.le_trans (ih x hmem) (Nat.le_max_right a (maxD rest))

theorem newSlots_nil (start : Nat) : newSlots start [] = [] := rfl

theorem newSlots_cons (start : Nat) (pr : Str × Rat) (res : List (Str × Rat)) :
    newSlots start (pr :: res) =
      (mkLoraKey start, Val.slot true pr.1 pr.2) :: newSlots (start + 1) res := by
  unfold newSlots
  rw [List.length_cons, List.range'_succ, List.zipWith_cons_cons]

theorem newSlots_keys : ∀ (res : List (Str × Rat)) (start : Nat),
    (newSlots start res).map Prod.fst =
      (List.range' start res.length).map mkLoraKey := by
  intro res
  induction res with
  | nil => intro start; rfl
  | cons pr rest ih =>
      intro start
      rw [newSlots_cons, List.map_cons, ih (start + 1), List.length_cons,
        List.range'_succ, List.map_cons]

theorem loraIdxes_append_newSlots (inputs : List (Str × Val))
    (start : Nat) (res : List (Str × Rat)) (idxes : List Nat)
    (hidx : loraIdxes inputs = some idxes) :
    loraIdxes (inputs ++ newSlots start res) =
      some (idxes ++ List.range' start res.length) := by
  unfold loraIdxes at hidx ⊢
  rw [List.map_append, List.filter_append, List.map_append]
  refine optionAll_append _ _ _ _ hidx ?_
  rw [newSlots_keys]
  have hfil : ((List.range' start res.length).map mkLoraKey).filter
      (fun k => ("lora_".data).isPrefixOf k) =
      (List.range' start res.length).map mkLoraKey := by
    rw [List.filter_eq_self]
    intro k hk
    rcases List.mem_map.mp hk with ⟨i, _, rfl⟩
    exact loraHead_isPrefixOf_mkLoraKey i
  rw [hfil, List.map_map]
  have hmap : ((List.range' start res.length).map
      ((fun k => pyNat (lastSeg k)) ∘ mkLoraKey)) =
      (List.range' start res.length).map some := by
    apply List.map_congr_left
    intro i _
    exact pyNat_lastSeg_mkLoraKey i
  rw [hmap, optionAll_map_some]

theorem find_wfSet_class_preserved :
    ∀ (w : Workflow) (key : Str) (f : NodeData → NodeData) (role : Str),
      (∀ nd, (f nd).class_type = nd.class_type) →
      role ≠ "CLIPTextEncode".data →
      find_workflow_key (wfSet w key f) role = find_workflow_key w role := by
  intro w key f role hf hrole
  induction w with
  | nil => rfl
  | cons p rest ih =>
      obtain ⟨k0, nd0⟩ := p
      rw [wfSet]
      by_cases hk : k0 = key
      · rw [if_pos hk, find_workflow_key, find_workflow_key]
        by_cases hcl : nd0.class_type = some role
        · rw [if_pos ⟨hf nd0 ▸ hcl, fun hand => hrole hand.1⟩,
            if_pos ⟨hcl, fun hand => hrole hand.1⟩]
        · rw [if_neg (fun hand => hcl (hf nd0 ▸ hand.1)),
            if_neg (fun hand => hcl hand.1)]
      · rw [if_neg hk, find_workflow_key, find_workflow_key]
        by_cases hcl : nd0.class_type = some role
        · rw [if_pos ⟨hcl, fun hand => hrole hand.1⟩,
            if_pos ⟨hcl, fun hand => hrole hand.1⟩]
        · rw [if_neg (fun hand => hcl hand.1),
            if_neg (fun hand => hcl hand.1)]
          exact ih

theorem addLorasLoop_spec (resolver : Str → Option Str) (key : Str) :
    ∀ (loras : List (Str × Rat)) (last : Nat) (w : Workflow) (nd : NodeData),
      alistGet w key = some nd →
      (∀ k ∈ nd.inputs.map Prod.fst, ("lora_".data).isPrefixOf k = true →
        ∃ j, pyNat (lastSeg k) = some j ∧ j ≤ last) →
      ∃ nd' : NodeData,
        alistGet (addLorasLoop resolver key loras last w) key = some nd' ∧
        nd'.class_type = nd.class_type ∧
        nd'.inputs = nd.inputs ++
          newSlots (last + 1) (resolvedOf resolver loras) ∧
        (∀ k', k' ≠ key →
          alistGet (addLorasLoop resolver key loras last w) k' =
            alistGet w k') := by
  intro loras
  induction loras with
  | nil =>
      intro last w nd hget hinv
      refine ⟨nd, ?_, rfl, ?_, ?_⟩
      · rw [addLorasLoop]; exact hget
      · simp [resolvedOf, newSlots_nil]
      · intro k' _; rw [addLorasLoop]
  | cons l rest ih =>
      obtain ⟨nm, wt⟩ := l
      intro last w nd hget hinv
      cases hres : resolver nm with
      | none =>
          have hres2 : resolvedOf resolver ((nm, wt) :: rest) =
              resolvedOf resolver rest := by
            unfold resolvedOf
            rw [List.filterMap_cons]
            simp [hres]
          simp only [addLorasLoop, hres, hres2]
          exact ih last w nd hget hinv
      | some path =>
          have hres2 : resolvedOf resolver ((nm, wt) :: rest) =
              (path, wt) :: resolvedOf resolver rest := by
            unfold resolvedOf
            rw [List.filterMap_cons]
            simp [hres]
          simp only [addLorasLoop, hres, hres2]
          have hfresh : mkLoraKey (last + 1) ∉ nd.inputs.map Prod.fst := by
            intro hmem
            obtain ⟨j, hj, hle⟩ :=
              hinv _ hmem (loraHead_isPrefixOf_mkLoraKey (last + 1))
            rw [pyNat_lastSeg_mkLoraKey] at hj
            injection hj with hj
            omega
          have hget1 : alistGet (wfSet w key (fun nd =>
              ⟨nd.class_type, alistSet nd.inputs (mkLoraKey (last + 1))
                (.slot true path wt)⟩)) key =
              some ⟨nd.class_type, nd.inputs ++
                [(mkLoraKey (last + 1), Val.slot true path wt)]⟩ := by
            rw [alistGet_wfSet_self w key _ nd hget,
              alistSet_fresh nd.inputs _ _ hfresh]
          have hinv1 : ∀ k ∈ (nd.inputs ++
              [(mkLoraKey (last + 1), Val.slot true path wt)]).map Prod.fst,
              ("lora_".data).isPrefixOf k = true →
              ∃ j, pyNat (lastSeg k) = some j ∧ j ≤ last + 1 := by
            intro k hk hpre
            rw [List.map_append] at hk
            rcases List.mem_append.mp hk with hl | hr
            · obtain ⟨j, hj, hle⟩ := hinv k hl hpre
              exact ⟨j, hj, by omega⟩
            · rcases List.mem_singleton.mp hr with rfl
              exact ⟨last + 1, pyNat_lastSeg_mkLoraKey (last + 1),
                Nat.le_refl _⟩
          obtain ⟨nd', h1, h2, h3, h4⟩ :=
            ih (last + 1) (wfSet w key _) _ hget1 hinv1
          refine ⟨nd', h1, h2, ?_, ?_⟩
          · rw [h3, newSlots_cons, List.append_assoc, List.singleton_append]
          · intro k' hk'
            rw [h4 k' hk', alistGet_wfSet_ne w key _ k' hk']

theorem find_addLorasLoop (resolver : Str → Option Str) (key role : Str)
    (hrole : role ≠ "CLIPTextEncode".data) :
    ∀ (loras : List (Str × Rat)) (last : Nat) (w : Workflow),
      find_workflow_key (addLorasLoop resolver key loras last w) role =
        find_workflow_key w role := by
  intro loras
  induction loras with
  | nil => intro last w; rw [addLorasLoop]
  | cons l rest ih =>
      obtain ⟨nm, wt⟩ := l
      intro last w
      cases hres : resolver nm with
      | none => simp only [addLorasLoop, hres]; exact ih last w
      | some path =>
          simp only [addLorasLoop, hres]
          rw [ih (last + 1) _,
            find_wfSet_class_preserved w key (fun nd =>
              ⟨nd.class_type, alistSet nd.inputs (mkLoraKey (last + 1))
                (.slot true path wt)⟩) role (fun nd => rfl) hrole]

theorem add_loras_spec (resolver : Str → Option Str) (w : Workflow)
    (loras : List (Str × Rat)) (key : Str) (nd : NodeData)
    (idxes : List Nat)
    (hfind : find_workflow_key w powerLoraType = some key)
    (hget : alistGet w key = some nd)
    (hidx : loraIdxes nd.inputs = some idxes) :
    ∃ w' nd',
      add_loras_to_workflow resolver w loras = some w' ∧
      alistGet w' key = some nd' ∧
      nd'.class_type = nd.class_type ∧
      nd'.inputs = nd.inputs ++
        newSlots (maxD idxes + 1) (resolvedOf resolver loras) ∧
      (∀ k', k' ≠ key → alistGet w' k' = alistGet w k') ∧
      loraIdxes nd'.inputs = some (idxes ++
        List.range' (maxD idxes + 1) (resolvedOf resolver loras).length) ∧
      find_workflow_key w' powerLoraType = some key := by
  have hinv : ∀ k ∈ nd.inputs.map Prod.fst,
      ("lora_".data).isPrefixOf k = true →
      ∃ j, pyNat (lastSeg k) = some j ∧ j ≤ maxD idxes := by
    intro k hk hpre
    have hkf : k ∈ (nd.inputs.map Prod.fst).filter
        (fun k => ("lora_".data).isPrefixOf k) :=
      List.mem_filter.mpr ⟨hk, hpre⟩
    have hmm : pyNat (lastSeg k) ∈ ((nd.inputs.map Prod.fst).filter
        (fun k => ("lora_".data).isPrefixOf k)).map
          (fun k => pyNat (lastSeg k)) :=
      List.mem_map_of_mem _ hkf
    obtain ⟨j, hj, he⟩ := optionAll_mem _ idxes hidx _ hmm
    exact ⟨j, he, le_maxD idxes j hj⟩
  obtain ⟨nd', h1, h2, h3, h4⟩ :=
    addLorasLoop_spec resolver key loras (maxD idxes) w nd hget hinv
  refine ⟨addLorasLoop resolver key loras (maxD idxes) w, nd', ?_, h1, h2,
    h3, h4, ?_, ?_⟩
  · simp only [add_loras_to_workflow, hfind, hget, hidx]
  · rw [h3]
    exact loraIdxes_append_newSlots nd.inputs _ _ idxes hidx
  · rw [find_addLorasLoop resolver key powerLoraType (by decide) loras
      (maxD idxes) w]
    exact hfind

/-- C7: when the loader node is present and its existing `lora_<n>` slot
keys parse, appending modifiers assigns the consecutive keys
`lora_<m+1> ... lora_<m+c>` where m is the maximum existing index (0 when
none) and c the number of modifiers the resolver locates — one index per
modifier actually added, unresolvable names skipped while the rest are
processed, other nodes untouched — and a successive append call on the
result starts above the new maximum, so lower indices are never
reused. -/
theorem add_loras_slot_indexing (resolver : Str → Option Str)
    (w : Workflow) (loras : List (Str × Rat)) (key : Str) (nd : NodeData)
    (idxes : List Nat)
    (hfind : find_workflow_key w powerLoraType = some key)
    (hget : alistGet w key = some nd)
    (hidx : loraIdxes nd.inputs = some idxes) :
    ∃ w' nd',
      add_loras_to_workflow resolver w loras = some w' ∧
      alistGet w' key = some nd' ∧
      nd'.inputs = nd.inputs ++
        newSlots (maxD idxes + 1) (resolvedOf resolver loras) ∧
      (∀ k', k' ≠ key → alistGet w' k' = alistGet w k') ∧
      loraIdxes nd'.inputs = some (idxes ++
        List.range' (maxD idxes + 1) (resolvedOf resolver loras).length) ∧
      (∀ j ∈ idxes, ∀ i ∈ List.range' (maxD idxes + 1)
        (resolvedOf resolver loras).length, j < i) ∧
      ∀ (resolver2 : Str → Option Str) (loras2 : List (Str × Rat)),
        ∃ w2 nd2,
          add_loras_to_workflow resolver2 w' loras2 = some w2 ∧
          alistGet w2 key = some nd2 ∧
          nd2.inputs = nd'.inputs ++ newSlots
            (maxD (idxes ++ List.range' (maxD idxes + 1)
              (resolvedOf resolver loras).length) + 1)
            (resolvedOf resolver2 loras2) ∧
          ∀ i1 ∈ List.range' (maxD idxes + 1)
              (resolvedOf resolver loras).length,
            ∀ i2 ∈ List.range' (maxD (idxes ++ List.range' (maxD idxes + 1)
                (resolvedOf resolver loras).length) + 1)
                (resolvedOf resolver2 loras2).length, i1 < i2 := by
  obtain ⟨w', nd', h1, h2, h3, h4, h5, h6, h7⟩ :=
    add_loras_spec resolver w loras key nd idxes hfind hget hidx
  refine ⟨w', nd', h1, h2, h4, h5, h6, ?_, ?_⟩
  · intro j hj i hi
    have hle := le_maxD idxes j hj
    have hge := (List.mem_range'_1.mp hi).1
    omega
  · intro resolver2 loras2
    obtain ⟨w2, nd2, g1, g2, g3, g4, g5, g6, g7⟩ :=
      add_loras_spec resolver2 w' loras2 key nd'
        (idxes ++ List.range' (maxD idxes + 1)
          (resolvedOf resolver loras).length) h7 h2 h6
    refine ⟨w2, nd2, g1, g2, g4, ?_⟩
    intro i1 hi1 i2 hi2
    have hle : i1 ≤ maxD (idxes ++ List.range' (maxD idxes + 1)
        (resolvedOf resolver loras).length) :=
      le_maxD _ i1 (List.mem_append.mpr (Or.inr hi1))
    have hge := (List.mem_range'_1.mp hi2).1
    omega

theorem add_loras_slot_indexing_witness :
    ∃ w' nd',
      add_loras_to_workflow res1 wPower lorasW = some w' ∧
      alistGet w' "1".data = some nd' ∧
      nd'.inputs = powerNode.inputs ++
        newSlots (maxD [2] + 1) (resolvedOf res1 lorasW) ∧
      (∀ k', k' ≠ "1".data → alistGet w' k' = alistGet wPower k') ∧
      loraIdxes nd'.inputs = some ([2] ++
        List.range' (maxD [2] + 1) (resolvedOf res1 lorasW).length) ∧
      (∀ j ∈ [2], ∀ i ∈ List.range' (maxD [2] + 1)
        (resolvedOf res1 lorasW).length, j < i) ∧
      ∀ (resolver2 : Str → Option Str) (loras2 : List (Str × Rat)),
        ∃ w2 nd2,
          add_loras_to_workflow resolver2 w' loras2 = some w2 ∧
          alistGet w2 "1".data = some nd2 ∧
          nd2.inputs = nd'.inputs ++ newSlots
            (maxD ([2] ++ List.range' (maxD [2] + 1)
              (resolvedOf res1 lorasW).length) + 1)
            (resolvedOf resolver2 loras2) ∧
          ∀ i1 ∈ List.range' (maxD [2] + 1) (resolvedOf res1 lorasW).length,
            ∀ i2 ∈ List.range' (maxD ([2] ++ List.range' (maxD [2] + 1)
                (resolvedOf res1 lorasW).length) + 1)
                (resolvedOf resolver2 loras2).length, i1 < i2 :=
  add_loras_slot_indexing res1 wPower lorasW "1".data powerNode [2]
    (by decide) rfl (by decide)

end Comfy
